import Mathlib

/-!
Shallow embedding of the kindle highlight extraction/translation pipeline:
`src/utils.ts` (getFileMetadata), `translate.ts` (translateEntries and its
helpers) and `extract-from-kindle.ts` (extractFromKindle and its helpers).

File contents are modelled as `List Char`; a missing file is `none`.
The JavaScript string operations used by the code are reimplemented
character by character so that every definition is executable and
kernel-reducible.
-/

namespace Kindle

instance exceptDecEq {ε α : Type} [DecidableEq ε] [DecidableEq α] : DecidableEq (Except ε α)
  | .error e, .error f =>
    if h : e = f then isTrue (by rw [h]) else isFalse fun hh => h (Except.error.inj hh)
  | .error _, .ok _ => isFalse fun hh => Except.noConfusion hh
  | .ok _, .error _ => isFalse fun hh => Except.noConfusion hh
  | .ok a, .ok b =>
    if h : a = b then isTrue (by rw [h]) else isFalse fun hh => h (Except.ok.inj hh)

/-- JS `s.split("\n")`: cut at every newline, keeping empty pieces. -/
def splitNl : List Char → List (List Char)
  | [] => [[]]
  | c :: rest =>
    if c = '\n' then [] :: splitNl rest
    else
      match splitNl rest with
      | [] => [[c]]
      | l :: ls => (c :: l) :: ls

/-- JS `array.join("\n")`. -/
def joinNl : List (List Char) → List Char
  | [] => []
  | [l] => l
  | l :: l' :: ls => l ++ '\n' :: joinNl (l' :: ls)

/-- Whitespace as stripped by JS `trim` (the characters occurring in this code base). -/
def isWsp (c : Char) : Bool :=
  c = ' ' || c = '\t' || c = '\r' || c = '\n'

/-- JS `s.trim()`. -/
def trimL (l : List Char) : List Char :=
  ((l.dropWhile isWsp).reverse.dropWhile isWsp).reverse

/-- JS `array.slice(start)` with a possibly negative integer start index. -/
def jsSlice {α : Type} (xs : List α) (start : Int) : List α :=
  if start < 0 then xs.drop (((xs.length : Int) + start).toNat)
  else xs.drop start.toNat

/-- Maximal leading run of decimal digits (the greedy capture of a regex digit group). -/
def leadingDigits : List Char → List Char
  | [] => []
  | c :: cs => if c.isDigit then c :: leadingDigits cs else []

/-- Decimal value of a digit string, as JS `parseInt(s, 10)` on an all-digit capture. -/
def digitsToNat (l : List Char) : Nat :=
  l.foldl (fun a c => a * 10 + (c.toNat - 48)) 0

/-- The characters of `"Translate from: "` (the regex literal in `getFileMetadata`). -/
def regexMarker : List Char :=
  ['T', 'r', 'a', 'n', 's', 'l', 'a', 't', 'e', ' ', 'f', 'r', 'o', 'm', ':', ' ']

/-- The characters of `"# Translate from: "` (the `startsWith` marker in `getFileMetadata`). -/
def headerMarker : List Char := '#' :: ' ' :: regexMarker

/-- Condition for the regex `/Translate from: (\d+)/` to match at the current scan position. -/
def ftfCond (s : List Char) : Bool :=
  regexMarker.isPrefixOf s && !(leadingDigits (s.drop 16)).isEmpty

/-- Left-to-right scan of the regex `/Translate from: (\d+)/`: first position where
the literal marker is followed by at least one digit; the capture is the maximal
digit run there. -/
def findTranslateFrom : List Char → Option Nat
  | [] => none
  | c :: rest =>
    if ftfCond (c :: rest) then some (digitsToNat (leadingDigits ((c :: rest).drop 16)))
    else findTranslateFrom rest

/-- `FileMetadata` from `utils.ts`. -/
structure FileMetadata where
  lastProcessedIndex : Int
  translateFromIndex : Int
deriving DecidableEq

/-- `getFileMetadata` from `utils.ts`: a missing file and a missing or unparsable
header both yield the `-1` sentinels; a parsed header value `n` yields
`translateFromIndex = n + 1`. `lastProcessedIndex` is never parsed. -/
def getFileMetadata : Option (List Char) → FileMetadata
  | none => ⟨-1, -1⟩
  | some content =>
    let lines := splitNl content
    let line0 := lines.headD []
    if headerMarker.isPrefixOf line0 then
      match findTranslateFrom line0 with
      | some n => ⟨-1, (n : Int) + 1⟩
      | none => ⟨-1, -1⟩
    else ⟨-1, -1⟩

/-- The decimal digit character for `d < 10`. -/
def digitChar (d : Nat) : Char := Char.ofNat (48 + d)

/-- Decimal digit string of a natural number (fuel-driven so that it is structural). -/
def natToStrFuel : Nat → Nat → List Char
  | 0, _ => []
  | fuel + 1, n =>
    if n < 10 then [digitChar n]
    else natToStrFuel fuel (n / 10) ++ [digitChar (n % 10)]

/-- JS `n.toString()` for a natural number. -/
def natToStr (n : Nat) : List Char := natToStrFuel (n + 1) n

/-- JS `n.toString()` for an integer. -/
def intToStr : Int → List Char
  | Int.ofNat n => natToStr n
  | Int.negSucc n => '-' :: natToStr (n + 1)

/-- A `(original, translation)` row of the Result Table (`TranslationEntry` in `translate.ts`). -/
structure TranslationEntry where
  original : List Char
  translation : List Char
deriving DecidableEq

/-- Split a CSV line at its last comma, JS `line.lastIndexOf(",")` style:
`none` when the line has no comma. -/
def splitLastComma : List Char → Option (List Char × List Char)
  | [] => none
  | c :: rest =>
    match splitLastComma rest with
    | some (a, b) => some (c :: a, b)
    | none => if c = ',' then some ([], rest) else none

/-- One line of the Result Table read back, as in `getExistingTranslations`:
`original = line.substring(0, lastCommaIndex)`, `translation = line.substring(lastCommaIndex + 1)`.
With no comma, JS yields `substring(0, -1) = ""` and `substring(0) = line`. -/
def parseCsvLine (l : List Char) : TranslationEntry :=
  match splitLastComma l with
  | some (o, t) => ⟨o, t⟩
  | none => ⟨[], l⟩

/-- `getExistingTranslations` from `translate.ts`. -/
def getExistingTranslations : Option (List Char) → List TranslationEntry
  | none => []
  | some content =>
    (((splitNl content).filter (fun l => trimL l ≠ [])).map parseCsvLine)

/-- The translation capability: `none` models a call that throws. -/
def Oracle : Type := List Char → Option (List Char)

/-- Per-entry translation result, as in the `try`/`catch` of `translateEntries`:
a successful response has its periods removed and is trimmed, an empty result
falls back to `"[Translation failed]"`, a thrown call records `"[Translation error]"`. -/
def applyOracle (oracle : Oracle) (entry : List Char) : List Char :=
  match oracle entry with
  | none => "[Translation error]".data
  | some c =>
    let t := trimL (c.filter (fun ch => ch ≠ '.'))
    if t = [] then "[Translation failed]".data else t

/-- One CSV output line, as built in `translateEntries`: quotes are removed from
both fields and the translation is additionally lowercased and trimmed. -/
def serializeRow (e : TranslationEntry) : List Char :=
  (e.original.filter (fun c => c ≠ '"')) ++
    ',' :: trimL ((e.translation.filter (fun c => c ≠ '"')).map Char.toLower)

/-- The entries a Translator run selects, as in `translateEntries`:
`startIndex = metadata.translateFromIndex - 1`, then
`lines.slice(startIndex).filter(line => line.length > 0)` over the trimmed lines. -/
def entriesToTranslate (content : List Char) : List (List Char) :=
  let metadata := getFileMetadata (some content)
  let lines := (splitNl content).map trimL
  let startIndex := metadata.translateFromIndex - 1
  (jsSlice lines startIndex).filter (fun l => l ≠ [])

/-- The `(original, translation)` pairs a run appends, one per selected entry. -/
def newTranslationsOf (oracle : Oracle) (content : List Char) : List TranslationEntry :=
  (entriesToTranslate content).map (fun e => ⟨e, applyOracle oracle e⟩)

/-- The header rewrite at the end of `translateEntries`: only when the first
line of the current file starts with the marker is it replaced by
`"# Translate from: " + newIndex`. -/
def updatedStaging (content : List Char) (newIndex : Int) : List Char :=
  let currentLines := splitNl content
  if headerMarker.isPrefixOf (currentLines.headD []) then
    joinNl ((headerMarker ++ intToStr newIndex) :: currentLines.tail)
  else content

/-- The two files a Translator run touches: the Staging List (`INPUT_FILE` .txt)
and the Result Table (.csv). `none` is a missing file. -/
structure TransState where
  staging : Option (List Char)
  csv : Option (List Char)
deriving DecidableEq

/-- The fatal setup errors thrown by `translateEntries`. -/
inductive TransError
  | noApiKey
  | inputNotFound
deriving DecidableEq

/-- The state after a Translator run that selected at least one entry: the
Result Table is rewritten as existing-plus-new serialized rows and the Staging
List header is updated to `newTranslations.length + metadata.translateFromIndex`. -/
def translateRunBody (oracle : Oracle) (content : List Char) (csv : Option (List Char)) :
    TransState :=
  ⟨some (updatedStaging content
      (((newTranslationsOf oracle content).length : Int) +
        (getFileMetadata (some content)).translateFromIndex)),
   some (joinNl ((getExistingTranslations csv ++ newTranslationsOf oracle content).map
      serializeRow))⟩

/-- `translateEntries` from `translate.ts` as a state transformer: a thrown
setup error yields `Except.error` with both files untouched; a run with no
selected entries returns early without writing; otherwise the run rewrites
both files as in `translateRunBody`. -/
def translateEntries (apiKey : Bool) (oracle : Oracle) (st : TransState) :
    Except TransError TransState :=
  if apiKey = false then .error .noApiKey
  else
    match st with
    | ⟨none, _⟩ => .error .inputNotFound
    | ⟨some content, csv⟩ =>
      if entriesToTranslate content = [] then .ok ⟨some content, csv⟩
      else .ok (translateRunBody oracle content csv)

/-- First occurrence of a separator: `some (before, after)` when found. -/
def splitFirst (sep : List Char) : List Char → Option (List Char × List Char)
  | [] => none
  | c :: rest =>
    if sep.isPrefixOf (c :: rest) then some ([], (c :: rest).drop sep.length)
    else
      match splitFirst sep rest with
      | none => none
      | some (pre, post) => some (c :: pre, post)

/-- Fuel-driven repeated split (each found separator consumes at least one
character when `sep` is nonempty, so `length + 1` fuel is always enough). -/
def splitSepFuel (sep : List Char) : Nat → List Char → List (List Char)
  | 0, s => [s]
  | fuel + 1, s =>
    match splitFirst sep s with
    | none => [s]
    | some (pre, post) => pre :: splitSepFuel sep fuel post

/-- JS `s.split(sep)` for a nonempty string separator. -/
def splitJS (sep s : List Char) : List (List Char) :=
  splitSepFuel sep (s.length + 1) s

/-- The clippings block delimiter `"\r\n==========\r\n"`. -/
def clipSep : List Char :=
  ['\r', '\n', '=', '=', '=', '=', '=', '=', '=', '=', '=', '=', '\r', '\n']

/-- JS `hay.includes(needle)`. -/
def includesL (needle : List Char) : List Char → Bool
  | [] => needle.isEmpty
  | c :: rest => needle.isPrefixOf (c :: rest) || includesL needle rest

/-- JS `s.replace(/a/g, b)` for a single-character pattern. -/
def replAll (a : Char) (b : List Char) : List Char → List Char
  | [] => []
  | c :: rest => (if c = a then b else [c]) ++ replAll a b rest

/-- The sanitization chain applied to the highlighted-text line in `parseClippings`:
remove commas, map `.`/`:`/`»`/`!`/`?` to spaces, (vacuously) map remaining commas
to `" -"`, lowercase, trim. -/
def sanitizeText (l : List Char) : List Char :=
  trimL ((replAll ',' " -".data
    (replAll '?' " ".data
      (replAll '!' " ".data
        (replAll '»' " ".data
          (replAll ':' " ".data
            (replAll '.' " ".data
              (replAll ',' [] l))))))).map Char.toLower)

/-- A highlight produced by `parseClippings`: sanitized text plus the per-book
ordinal counter (stored as a string in the source via `highlightIndex.toString()`
and parsed back with `parseInt`; the round trip is exact, so it is kept as `Nat`). -/
structure Highlight where
  text : List Char
  location : Nat
deriving DecidableEq

/-- The per-entry body of the `parseClippings` loop, threading `highlightIndex`. -/
def parseClippingsGo (targetBook : List Char) : List (List Char) → Nat → List Highlight
  | [], _ => []
  | e :: rest, idx =>
    let lines := (splitNl e).filter (fun l => trimL l ≠ [])
    if lines.length < 2 then parseClippingsGo targetBook rest idx
    else
      let bookLine := lines.headD []
      if !includesL targetBook (bookLine.filter (fun c => c ≠ '\r')) then
        parseClippingsGo targetBook rest idx
      else
        -- lines[2] may be absent in JS (`?.` chain yields undefined); an undefined
        -- text behaves as "" in the later join, which `sanitizeText [] = []` matches.
        ⟨sanitizeText (lines.getD 2 []), idx⟩ :: parseClippingsGo targetBook rest (idx + 1)

/-- `parseClippings` from `extract-from-kindle.ts`. -/
def parseClippings (content targetBook : List Char) : List Highlight :=
  parseClippingsGo targetBook ((splitJS clipSep content).filter (fun e => trimL e ≠ [])) 0

/-- The header marker `"# Last processed:"` that `getExistingHighlights` skips. -/
def lastProcMarker : List Char :=
  ['#', ' ', 'L', 'a', 's', 't', ' ', 'p', 'r', 'o', 'c', 'e', 's', 's', 'e', 'd', ':']

/-- `getExistingHighlights` from `extract-from-kindle.ts`: skip a
`"# Last processed:"` first line, keep the trimmed nonempty lines. -/
def getExistingHighlights : Option (List Char) → List (List Char)
  | none => []
  | some content =>
    let lines := splitNl content
    let startIdx := if lastProcMarker.isPrefixOf (lines.headD []) then 1 else 0
    ((lines.drop startIdx).map trimL).filter (fun l => l ≠ [])

/-- The filter in `extractFromKindle` selecting "new" highlights:
`parseInt(h.location, 10) > metadata.translateFromIndex`. -/
def newHighlightsOf (allHighlights : List Highlight) (meta : FileMetadata) : List Highlight :=
  allHighlights.filter (fun h => (h.location : Int) > meta.translateFromIndex)

/-- The files an Extractor run touches: the clippings export (read only) and
the Staging List output file. `none` is a missing file. -/
structure ExtractState where
  clippings : Option (List Char)
  staging : Option (List Char)
deriving DecidableEq

/-- The fatal setup error of `extractFromKindle` (`process.exit(1)` on a
missing clippings file). -/
inductive ExtractError
  | clippingsNotFound
deriving DecidableEq

/-- `extractFromKindle` from `extract-from-kindle.ts` as a state transformer:
no highlights or no new highlights return without writing; otherwise the output
file becomes existing highlights plus new texts, joined with newlines plus a
trailing newline — note that no metadata header is ever written. -/
def extractFromKindle (bookName : List Char) (st : ExtractState) :
    Except ExtractError ExtractState :=
  match st.clippings with
  | none => .error .clippingsNotFound
  | some clip =>
    let allHighlights := parseClippings clip bookName
    if allHighlights = [] then .ok st
    else
      let metadata := getFileMetadata st.staging
      let existing := getExistingHighlights st.staging
      let newHighlights := newHighlightsOf allHighlights metadata
      if newHighlights = [] then .ok st
      else
        .ok ⟨st.clippings,
             some (joinNl (existing ++ newHighlights.map Highlight.text) ++ ['\n'])⟩

/-- Shape of a line list in which every blank line occurs after all nonempty
lines (no blank line precedes a nonempty one). Used to state when the
Translator's checkpoint overshoot is harmless. -/
def blanksAtEnd : List (List Char) → Bool
  | [] => true
  | [] :: ls => ls.all List.isEmpty
  | (_ :: _) :: ls => blanksAtEnd ls

-- sanity checks on the JS string model (not part of the verification result)
example : splitNl "a\nb\n".data = ["a".data, "b".data, []] := by decide
example : joinNl ["a".data, "b".data, []] = "a\nb\n".data := by decide
example : trimL "  x\r ".data = "x".data := by decide
example : jsSlice ["a", "b", "c"] (-2) = ["b", "c"] := by decide
example : jsSlice ["a", "b", "c"] 1 = ["b", "c"] := by decide
example : headerMarker = "# Translate from: ".data := by decide
example : findTranslateFrom "# Translate from: 12".data = some 12 := by decide
example : findTranslateFrom "# Translate from: x".data = none := by decide
example : natToStr 40 = "40".data := by decide
example : getFileMetadata (some "# Translate from: 0\nfoo".data) = ⟨-1, 1⟩ := by decide
example : entriesToTranslate "# Translate from: 0\nfoo\nbar\n".data =
    ["# Translate from: 0".data, "foo".data, "bar".data] := by decide
example : entriesToTranslate "foo\nbar\n".data = ["bar".data] := by decide
example :
    parseClippings "B (A)\r\n- meta\r\n\r\nFoo!\r\n==========\r\n".data "B".data =
      [⟨"foo".data, 0⟩] := by decide

/-! Helper lemmas about the JS string model. -/

theorem splitNl_ne_nil (s : List Char) : splitNl s ≠ [] := by
  cases s with
  | nil => simp [splitNl]
  | cons c rest =>
    simp only [splitNl]
    split
    · simp
    · split
      · simp
      · simp

theorem not_newline_mem_splitNl {s l : List Char} (h : l ∈ splitNl s) : '\n' ∉ l := by
  induction s generalizing l with
  | nil =>
    simp [splitNl] at h
    subst h
    simp
  | cons c rest ih =>
    simp only [splitNl] at h
    by_cases hc : c = '\n'
    · rw [if_pos hc] at h
      rcases List.mem_cons.mp h with h | h
      · subst h; simp
      · exact ih h
    · rw [if_neg hc] at h
      rcases hmatch : splitNl rest with _ | ⟨m, ms⟩
      · exact absurd hmatch (splitNl_ne_nil rest)
      · rw [hmatch] at h
        rcases List.mem_cons.mp h with h | h
        · subst h
          intro hmem
          rcases List.mem_cons.mp hmem with h | h
          · exact hc h.symm
          · exact ih (hmatch ▸ List.mem_cons_self m ms) h
        · exact ih (by rw [hmatch]; exact List.mem_cons_of_mem m h)

theorem splitNl_of_no_newline {a : List Char} (h : '\n' ∉ a) : splitNl a = [a] := by
  induction a with
  | nil => rfl
  | cons c rest ih =>
    have hc : c ≠ '\n' := fun hh => h (hh ▸ List.mem_cons_self c rest)
    have hrest : '\n' ∉ rest := fun hh => h (List.mem_cons_of_mem c hh)
    simp only [splitNl]
    rw [if_neg hc, ih hrest]

theorem splitNl_append_newline {a t : List Char} (h : '\n' ∉ a) :
    splitNl (a ++ '\n' :: t) = a :: splitNl t := by
  induction a with
  | nil => simp [splitNl]
  | cons c rest ih =>
    have hc : c ≠ '\n' := fun hh => h (hh ▸ List.mem_cons_self c rest)
    have hrest : '\n' ∉ rest := fun hh => h (List.mem_cons_of_mem c hh)
    simp only [List.cons_append, splitNl, List.append_eq]
    rw [if_neg hc, ih hrest]

theorem joinNl_cons {a : List Char} {ls : List (List Char)} (h : ls ≠ []) :
    joinNl (a :: ls) = a ++ '\n' :: joinNl ls := by
  cases ls with
  | nil => exact absurd rfl h
  | cons b bs => rfl

theorem splitNl_joinNl {ls : List (List Char)} (hne : ls ≠ [])
    (h : ∀ l ∈ ls, '\n' ∉ l) : splitNl (joinNl ls) = ls := by
  induction ls with
  | nil => exact absurd rfl hne
  | cons a bs ih =>
    cases bs with
    | nil => exact splitNl_of_no_newline (h a (List.mem_cons_self _ _))
    | cons b cs =>
      rw [joinNl_cons (by simp), splitNl_append_newline (h a (List.mem_cons_self _ _)),
        ih (by simp) (fun l hl => h l (List.mem_cons_of_mem _ hl))]

theorem splitNl_joinNl_append {A B : List (List Char)}
    (hA : ∀ l ∈ A, '\n' ∉ l) (hB : B ≠ []) :
    splitNl (joinNl (A ++ B)) = A ++ splitNl (joinNl B) := by
  induction A with
  | nil => simp
  | cons a A ih =>
    have hAB : A ++ B ≠ [] := fun hh => hB (List.append_eq_nil.mp hh).2
    rw [List.cons_append, joinNl_cons hAB,
      splitNl_append_newline (hA a (List.mem_cons_self _ _)),
      ih (fun l hl => hA l (List.mem_cons_of_mem _ hl)), List.cons_append]

theorem char_toNat_ofNat_valid {n : Nat} (h : n < 55296) : (Char.ofNat n).toNat = n := by
  unfold Char.ofNat
  rw [dif_pos (Or.inl h)]
  rfl

theorem toLower_eq_newline {c : Char} (h : Char.toLower c = '\n') : c = '\n' := by
  simp only [Char.toLower] at h
  split at h
  · exfalso
    next hc =>
      have h10 := congrArg Char.toNat h
      rw [char_toNat_ofNat_valid (by omega)] at h10
      have : ('\n').toNat = 10 := by decide
      omega
  · exact h

theorem not_newline_map_toLower {l : List Char} (h : '\n' ∉ l) :
    '\n' ∉ l.map Char.toLower := by
  intro hm
  rcases List.mem_map.mp hm with ⟨c, hc, hcl⟩
  have hc' := toLower_eq_newline hcl
  exact h (hc' ▸ hc)

theorem mem_trimL {x : Char} {l : List Char} (h : x ∈ trimL l) : x ∈ l := by
  unfold trimL at h
  replace h := List.mem_reverse.mp h
  replace h := (List.dropWhile_sublist _).subset h
  replace h := List.mem_reverse.mp h
  exact (List.dropWhile_sublist _).subset h

theorem splitLastComma_subset {l a b : List Char} (h : splitLastComma l = some (a, b)) :
    (∀ x ∈ a, x ∈ l) ∧ (∀ x ∈ b, x ∈ l) := by
  induction l generalizing a b with
  | nil => simp [splitLastComma] at h
  | cons c rest ih =>
    rcases hm : splitLastComma rest with _ | ⟨a', b'⟩
    · simp only [splitLastComma, hm] at h
      by_cases hc : c = ','
      · rw [if_pos hc] at h
        injection h with h'
        obtain ⟨rfl, rfl⟩ := Prod.mk.injEq .. ▸ (Prod.mk.inj h')
        exact ⟨by simp, fun x hx => List.mem_cons_of_mem c hx⟩
      · rw [if_neg hc] at h
        exact absurd h (by simp)
    · simp only [splitLastComma, hm] at h
      injection h with h'
      obtain ⟨h1, h2⟩ := Prod.mk.inj h'
      subst h1; subst h2
      obtain ⟨iha, ihb⟩ := ih hm
      constructor
      · intro x hx
        rcases List.mem_cons.mp hx with rfl | hx
        · exact List.mem_cons_self _ _
        · exact List.mem_cons_of_mem _ (iha x hx)
      · exact fun x hx => List.mem_cons_of_mem _ (ihb x hx)

theorem not_newline_serializeRow {e : TranslationEntry}
    (ho : '\n' ∉ e.original) (ht : '\n' ∉ e.translation) : '\n' ∉ serializeRow e := by
  unfold serializeRow
  intro hm
  rcases List.mem_append.mp hm with hm | hm
  · exact ho (List.mem_of_mem_filter hm)
  · rcases List.mem_cons.mp hm with hm | hm
    · exact absurd hm (by decide)
    · have hmem := mem_trimL hm
      exact not_newline_map_toLower (fun hh => ht (List.mem_of_mem_filter hh)) hmem

theorem not_newline_existing_rows (p : List Char) :
    ∀ e ∈ getExistingTranslations (some p), '\n' ∉ serializeRow e := by
  intro e he
  unfold getExistingTranslations at he
  rcases List.mem_map.mp he with ⟨l, hl, hle⟩
  have hlp : l ∈ splitNl p := List.mem_of_mem_filter hl
  have hnl : '\n' ∉ l := not_newline_mem_splitNl hlp
  subst hle
  rcases hs : splitLastComma l with _ | ⟨a, b⟩
  · simp only [parseCsvLine, hs]
    exact not_newline_serializeRow (by simp) hnl
  · simp only [parseCsvLine, hs]
    obtain ⟨ha, hb⟩ := splitLastComma_subset hs
    exact not_newline_serializeRow (fun hh => hnl (ha _ hh)) (fun hh => hnl (hb _ hh))

theorem digitChar_isDigit {d : Nat} (h : d < 10) : (digitChar d).isDigit = true := by
  interval_cases d <;> decide

theorem digitChar_toNat {d : Nat} (h : d < 10) : (digitChar d).toNat = 48 + d := by
  interval_cases d <;> decide

theorem digitsToNat_append_digit (xs : List Char) (d : Char) :
    digitsToNat (xs ++ [d]) = 10 * digitsToNat xs + (d.toNat - 48) := by
  unfold digitsToNat
  rw [List.foldl_append]
  simp [Nat.mul_comm]

theorem natToStrFuel_spec : ∀ (fuel n : Nat), n < fuel →
    natToStrFuel fuel n ≠ [] ∧ (∀ c ∈ natToStrFuel fuel n, c.isDigit = true) ∧
      digitsToNat (natToStrFuel fuel n) = n := by
  intro fuel
  induction fuel with
  | zero => intro n h; omega
  | succ fuel ih =>
    intro n h
    by_cases h10 : n < 10
    · simp only [natToStrFuel, if_pos h10]
      refine ⟨by simp, ?_, ?_⟩
      · intro c hc
        rw [List.mem_singleton.mp hc]
        exact digitChar_isDigit h10
      · show digitsToNat ([] ++ [digitChar n]) = n
        rw [digitsToNat_append_digit, digitChar_toNat h10]
        simp [digitsToNat]
    · simp only [natToStrFuel, if_neg h10]
      have hlt : n / 10 < n := Nat.div_lt_self (by omega) (by omega)
      have hdiv : n / 10 < fuel := by omega
      obtain ⟨hne, hdig, hval⟩ := ih (n / 10) hdiv
      refine ⟨by simp, ?_, ?_⟩
      · intro c hc
        rcases List.mem_append.mp hc with hc | hc
        · exact hdig c hc
        · rw [List.mem_singleton.mp hc]
          exact digitChar_isDigit (Nat.mod_lt _ (by omega))
      · rw [digitsToNat_append_digit, hval, digitChar_toNat (Nat.mod_lt _ (by omega))]
        omega

theorem natToStr_ne_nil (n : Nat) : natToStr n ≠ [] :=
  (natToStrFuel_spec _ _ (Nat.lt_succ_self n)).1

theorem natToStr_digits (n : Nat) : ∀ c ∈ natToStr n, c.isDigit = true :=
  (natToStrFuel_spec _ _ (Nat.lt_succ_self n)).2.1

theorem digitsToNat_natToStr (n : Nat) : digitsToNat (natToStr n) = n :=
  (natToStrFuel_spec _ _ (Nat.lt_succ_self n)).2.2

theorem leadingDigits_of_digits {ds : List Char} (h : ∀ c ∈ ds, c.isDigit = true) :
    leadingDigits ds = ds := by
  induction ds with
  | nil => rfl
  | cons c rest ih =>
    simp only [leadingDigits]
    rw [if_pos (h c (List.mem_cons_self _ _)),
      ih (fun x hx => h x (List.mem_cons_of_mem _ hx))]

theorem isPrefixOf_append_self (l r : List Char) : l.isPrefixOf (l ++ r) = true :=
  List.isPrefixOf_iff_prefix.mpr (List.prefix_append l r)

theorem ftfCond_hash (l : List Char) : ftfCond ('#' :: l) = false := rfl

theorem ftfCond_space (l : List Char) : ftfCond (' ' :: l) = false := rfl

theorem findTranslateFrom_cons_false {c : Char} {rest : List Char}
    (h : ftfCond (c :: rest) = false) :
    findTranslateFrom (c :: rest) = findTranslateFrom rest := by
  simp only [findTranslateFrom]
  rw [h]
  simp

theorem findTranslateFrom_of_cond {s : List Char} (hne : s ≠ []) (h : ftfCond s = true) :
    findTranslateFrom s = some (digitsToNat (leadingDigits (s.drop 16))) := by
  cases s with
  | nil => exact absurd rfl hne
  | cons c rest =>
    simp only [findTranslateFrom]
    rw [h]
    simp

theorem ftfCond_marker_digits {ds : List Char} (hne : ds ≠ [])
    (hdig : ∀ c ∈ ds, c.isDigit = true) : ftfCond (regexMarker ++ ds) = true := by
  unfold ftfCond
  rw [isPrefixOf_append_self, List.drop_left' (by rfl), leadingDigits_of_digits hdig]
  cases ds with
  | nil => exact absurd rfl hne
  | cons d t => rfl

theorem findTranslateFrom_marker_digits {ds : List Char} (hne : ds ≠ [])
    (hdig : ∀ c ∈ ds, c.isDigit = true) :
    findTranslateFrom (headerMarker ++ ds) = some (digitsToNat ds) := by
  show findTranslateFrom ('#' :: ' ' :: (regexMarker ++ ds)) = some (digitsToNat ds)
  rw [findTranslateFrom_cons_false (ftfCond_hash _),
    findTranslateFrom_cons_false (ftfCond_space _),
    findTranslateFrom_of_cond (by simp [regexMarker]) (ftfCond_marker_digits hne hdig),
    List.drop_left' (by rfl), leadingDigits_of_digits hdig]

theorem isWsp_false_of_digit {c : Char} (h : c.isDigit = true) : isWsp c = false := by
  by_contra hw
  rw [Bool.not_eq_false] at hw
  simp only [isWsp, Bool.or_eq_true, decide_eq_true_eq] at hw
  rcases hw with ((h1 | h1) | h1) | h1 <;> subst h1 <;> exact absurd h (by decide)

theorem not_newline_header_digits {ds : List Char} (h : ∀ c ∈ ds, c.isDigit = true) :
    '\n' ∉ headerMarker ++ ds := by
  intro hm
  rcases List.mem_append.mp hm with hm | hm
  · exact absurd hm (by decide)
  · exact absurd (h _ hm) (by decide)

theorem trimL_header_digits {ds : List Char} (hne : ds ≠ [])
    (hdig : ∀ c ∈ ds, c.isDigit = true) :
    trimL (headerMarker ++ ds) = headerMarker ++ ds := by
  unfold trimL
  have h1 : List.dropWhile isWsp (headerMarker ++ ds) = headerMarker ++ ds := by
    show List.dropWhile isWsp ('#' :: (' ' :: regexMarker ++ ds)) = _
    rw [List.dropWhile_cons_of_neg (by decide)]
    rfl
  rw [h1]
  obtain ⟨d, t, hrev⟩ : ∃ d t, ds.reverse = d :: t := by
    cases hd : ds.reverse with
    | nil => exact absurd (List.reverse_eq_nil_iff.mp hd) hne
    | cons d t => exact ⟨d, t, rfl⟩
  have hd_digit : d.isDigit = true :=
    hdig d (List.mem_reverse.mp (hrev ▸ List.mem_cons_self d t))
  rw [List.reverse_append, hrev, List.cons_append,
    List.dropWhile_cons_of_neg (by rw [isWsp_false_of_digit hd_digit]; simp),
    ← List.cons_append, ← hrev, ← List.reverse_append, List.reverse_reverse]

theorem blanksAtEnd_decomp : ∀ {L : List (List Char)}, blanksAtEnd L = true →
    ∃ A B, L = A ++ B ∧ (∀ l ∈ A, l ≠ []) ∧ (∀ l ∈ B, l = []) := by
  intro L
  induction L with
  | nil => exact fun _ => ⟨[], [], rfl, by simp, by simp⟩
  | cons a ls ih =>
    intro h
    cases a with
    | nil =>
      replace h : ls.all List.isEmpty = true := h
      refine ⟨[], [] :: ls, rfl, by simp, ?_⟩
      intro l hl
      rcases List.mem_cons.mp hl with rfl | hl
      · rfl
      · exact List.isEmpty_iff.mp (List.all_eq_true.mp h l hl)
    | cons c cs =>
      replace h : blanksAtEnd ls = true := h
      obtain ⟨A, B, hAB, hA, hB⟩ := ih h
      refine ⟨(c :: cs) :: A, B, by rw [hAB]; rfl, ?_, hB⟩
      intro l hl
      rcases List.mem_cons.mp hl with rfl | hl
      · simp
      · exact hA l hl

theorem my_drop_append_ge {α : Type} (A B : List α) (M : Nat) (h : A.length ≤ M) :
    (A ++ B).drop M = B.drop (M - A.length) := by
  induction A generalizing M with
  | nil => simp
  | cons a A ih =>
    cases M with
    | zero => simp at h
    | succ M =>
      simp only [List.cons_append, List.drop_succ_cons, List.length_cons]
      rw [ih M (by simpa using h)]
      congr 1
      omega

theorem filter_blank_region {B : List (List Char)} (hB : ∀ l ∈ B, l = []) (n : Nat) :
    (B.drop n).filter (fun l => l ≠ []) = [] := by
  rw [List.filter_eq_nil_iff]
  intro l hl
  have : l = [] := hB l (List.drop_subset _ _ hl)
  simp [this]

theorem drop_filter_blanksAtEnd {L : List (List Char)} (hb : blanksAtEnd L = true) (N : Nat) :
    ((L.drop (N + ((L.drop N).filter (fun l => l ≠ [])).length + 1)).filter
      (fun l => l ≠ [])) = [] := by
  obtain ⟨A, B, rfl, hA, hB⟩ := blanksAtEnd_decomp hb
  by_cases hN : N ≤ A.length
  · have hdropN : (A ++ B).drop N = A.drop N ++ B := List.drop_append_of_le_length hN
    have hfilterA : (A.drop N).filter (fun l => l ≠ []) = A.drop N := by
      rw [List.filter_eq_self]
      intro l hl
      simp [hA l (List.drop_subset _ _ hl)]
    have hk : ((A ++ B).drop N |>.filter (fun l => l ≠ [])).length = A.length - N := by
      rw [hdropN, List.filter_append, hfilterA]
      have : B.filter (fun l => l ≠ []) = [] := by
        have := filter_blank_region hB 0
        simpa using this
      rw [this, List.append_nil, List.length_drop]
    rw [hk, my_drop_append_ge _ _ _ (by omega), filter_blank_region hB]
  · have hdropN : (A ++ B).drop N = B.drop (N - A.length) :=
      my_drop_append_ge _ _ _ (by omega)
    have hk : ((A ++ B).drop N |>.filter (fun l => l ≠ [])).length = 0 := by
      rw [hdropN, filter_blank_region hB]
      rfl
    rw [hk, my_drop_append_ge _ _ _ (by omega), filter_blank_region hB]

theorem jsSlice_natCast {α : Type} (xs : List α) (n : Nat) :
    jsSlice xs (n : Int) = xs.drop n := by
  unfold jsSlice
  rw [if_neg (by omega)]
  simp

theorem translateEntries_some (oracle : Oracle) (c : List Char) (p : Option (List Char)) :
    translateEntries true oracle ⟨some c, p⟩ =
      if entriesToTranslate c = [] then .ok ⟨some c, p⟩
      else .ok (translateRunBody oracle c p) := rfl

theorem getFileMetadata_header {c : List Char} {N : Nat}
    (hp : headerMarker.isPrefixOf ((splitNl c).headD []) = true)
    (hf : findTranslateFrom ((splitNl c).headD []) = some N) :
    getFileMetadata (some c) = ⟨-1, (N : Int) + 1⟩ := by
  simp only [getFileMetadata]
  rw [if_pos hp, hf]

theorem entriesToTranslate_header {c : List Char} {N : Nat}
    (hp : headerMarker.isPrefixOf ((splitNl c).headD []) = true)
    (hf : findTranslateFrom ((splitNl c).headD []) = some N) :
    entriesToTranslate c =
      (((splitNl c).map trimL).drop N).filter (fun l => l ≠ []) := by
  simp only [entriesToTranslate, getFileMetadata_header hp hf]
  show (jsSlice ((splitNl c).map trimL) ((N : Int) + 1 - 1)).filter _ = _
  have h1 : ((N : Int) + 1 - 1) = (N : Int) := by omega
  rw [h1, jsSlice_natCast]

theorem updatedStaging_header {c : List Char} {m : Nat}
    (hp : headerMarker.isPrefixOf ((splitNl c).headD []) = true) :
    updatedStaging c (m : Int) =
      joinNl ((headerMarker ++ natToStr m) :: (splitNl c).tail) := by
  unfold updatedStaging
  rw [if_pos hp]
  rfl

theorem translateRunBody_header {o : Oracle} {c : List Char} {p : Option (List Char)} {N : Nat}
    (hp : headerMarker.isPrefixOf ((splitNl c).headD []) = true)
    (hf : findTranslateFrom ((splitNl c).headD []) = some N) :
    translateRunBody o c p =
      ⟨some (joinNl
          ((headerMarker ++ natToStr ((newTranslationsOf o c).length + N + 1)) ::
            (splitNl c).tail)),
       some (joinNl ((getExistingTranslations p ++ newTranslationsOf o c).map serializeRow))⟩ := by
  have hcast : ((newTranslationsOf o c).length : Int) +
      (getFileMetadata (some c)).translateFromIndex =
      (((newTranslationsOf o c).length + N + 1 : Nat) : Int) := by
    rw [getFileMetadata_header hp hf]
    show ((newTranslationsOf o c).length : Int) + ((N : Int) + 1) = _
    push_cast
    ring
  unfold translateRunBody
  rw [hcast, updatedStaging_header hp]

/-- After a run on a Staging List with a valid header and no blank line before
a nonempty line, the resulting state is a fixed point of the Translator: a
second run (with any oracle) selects nothing and changes nothing. -/
theorem secondRunNoop (o1 o2 : Oracle) (c : List Char) (p : Option (List Char)) (N : Nat)
    (hp : headerMarker.isPrefixOf ((splitNl c).headD []) = true)
    (hf : findTranslateFrom ((splitNl c).headD []) = some N)
    (hb : blanksAtEnd ((splitNl c).map trimL) = true)
    (st' : TransState)
    (h1 : translateEntries true o1 ⟨some c, p⟩ = .ok st') :
    translateEntries true o2 st' = .ok st' := by
  rw [translateEntries_some] at h1
  by_cases hE : entriesToTranslate c = []
  · rw [if_pos hE] at h1
    replace h1 := Except.ok.inj h1
    subst h1
    rw [translateEntries_some, if_pos hE]
  · rw [if_neg hE] at h1
    replace h1 := Except.ok.inj h1
    subst h1
    rw [translateRunBody_header hp hf]
    -- the rewritten staging file, line by line
    have hC'split : splitNl (joinNl
        ((headerMarker ++ natToStr ((newTranslationsOf o1 c).length + N + 1)) ::
          (splitNl c).tail)) =
        (headerMarker ++ natToStr ((newTranslationsOf o1 c).length + N + 1)) ::
          (splitNl c).tail := by
      apply splitNl_joinNl (by simp)
      intro l hl
      rcases List.mem_cons.mp hl with rfl | hl
      · exact not_newline_header_digits (natToStr_digits _)
      · rcases hsp : splitNl c with _ | ⟨hd, tl⟩
        · exact absurd hsp (splitNl_ne_nil c)
        · rw [hsp] at hl
          exact not_newline_mem_splitNl (by rw [hsp]; exact List.mem_cons_of_mem hd hl)
    have hhead2 : (splitNl (joinNl
        ((headerMarker ++ natToStr ((newTranslationsOf o1 c).length + N + 1)) ::
          (splitNl c).tail))).headD [] =
        headerMarker ++ natToStr ((newTranslationsOf o1 c).length + N + 1) := by
      rw [hC'split]
      rfl
    have hf2 : findTranslateFrom
        (headerMarker ++ natToStr ((newTranslationsOf o1 c).length + N + 1)) =
        some ((newTranslationsOf o1 c).length + N + 1) := by
      rw [findTranslateFrom_marker_digits (natToStr_ne_nil _) (natToStr_digits _),
        digitsToNat_natToStr]
    have hkk : (newTranslationsOf o1 c).length =
        ((((splitNl c).map trimL).drop N).filter (fun l => l ≠ [])).length := by
      unfold newTranslationsOf
      rw [List.length_map, entriesToTranslate_header hp hf]
    have hE2 : entriesToTranslate (joinNl
        ((headerMarker ++ natToStr ((newTranslationsOf o1 c).length + N + 1)) ::
          (splitNl c).tail)) = [] := by
      rw [entriesToTranslate_header (by rw [hhead2]; exact isPrefixOf_append_self _ _)
        (by rw [hhead2]; exact hf2)]
      rw [hC'split]
      simp only [List.map_cons]
      rw [trimL_header_digits (natToStr_ne_nil _) (natToStr_digits _),
        List.drop_succ_cons, List.map_tail, ← List.drop_one, List.drop_drop]
      have harith : 1 + ((newTranslationsOf o1 c).length + N) =
          N + ((newTranslationsOf o1 c).length) + 1 := by omega
      rw [harith, hkk]
      exact drop_filter_blanksAtEnd hb N
    rw [translateEntries_some, if_pos hE2]

/-- C1: on the fresh Staging List `"# Translate from: 0\nfoo\nbar\n"` with a
translation capability that succeeds on every call, the code does NOT append
two rows and rewrite the header to `"# Translate from: 2"`. Because
`getFileMetadata` returns the stored value plus one and `translateEntries`
subtracts one again, the run starts at line index 0, so the header line itself
is selected as an entry: three rows are appended (the first for the header
line) and the header is rewritten to `"# Translate from: 4"`. This theorem
evaluates the model at the claimed input and exhibits the actual behavior. -/
theorem c1_translator_actual_behavior :
    translateEntries true (fun _ => some "X".data)
        ⟨some "# Translate from: 0\nfoo\nbar\n".data, none⟩ =
      .ok ⟨some "# Translate from: 4\nfoo\nbar\n".data,
           some "# Translate from: 0,x\nfoo,x\nbar,x".data⟩ := by decide

/-- C2: the recorded header value does not advance by the number of appended
rows. On `"# Translate from: 1\nfoo\nbar\n"` the run appends exactly two rows
(`foo`, `bar`) but rewrites the header from 1 to 4 = 1 + 2 + 1, because
`translateEntries` writes `newTranslations.length + metadata.translateFromIndex`
and `metadata.translateFromIndex` is already the stored value plus one. -/
theorem c2_checkpoint_advance_behavior :
    translateEntries true (fun _ => some "X".data)
        ⟨some "# Translate from: 1\nfoo\nbar\n".data, none⟩ =
      .ok ⟨some "# Translate from: 4\nfoo\nbar\n".data, some "foo,x\nbar,x".data⟩ ∧
    (newTranslationsOf (fun _ => some "X".data) "# Translate from: 1\nfoo\nbar\n".data).length = 2 := by
  decide

/-- C3: for an export with two blocks of the target work (ordinals 0 and 1)
and a Staging List already containing ordinal 0's text, the run does NOT
append only ordinal 1 and record `lastExtractedIndex = 1`: the code never
writes any metadata header, the staging file has none, so
`metadata.translateFromIndex = -1` and BOTH highlights pass the `>` filter —
the existing text `foo` is appended again (duplicated) and no index is
recorded anywhere in the output. -/
theorem c3_extractor_actual_behavior :
    parseClippings
        "B (A)\r\n- meta\r\n\r\nfoo\r\n==========\r\nB (A)\r\n- meta\r\n\r\nbar\r\n==========\r\n".data
        "B".data = [⟨"foo".data, 0⟩, ⟨"bar".data, 1⟩] ∧
    extractFromKindle "B".data
        ⟨some "B (A)\r\n- meta\r\n\r\nfoo\r\n==========\r\nB (A)\r\n- meta\r\n\r\nbar\r\n==========\r\n".data,
         some "foo\n".data⟩ =
      .ok ⟨some "B (A)\r\n- meta\r\n\r\nfoo\r\n==========\r\nB (A)\r\n- meta\r\n\r\nbar\r\n==========\r\n".data,
           some "foo\nfoo\nbar\n".data⟩ := by decide

/-- C7: two consecutive Extractor runs over the same export are NOT idempotent.
Starting from no Staging List, the first run writes `"foo\n"`; since no
metadata header is ever written, the second run again selects every highlight
and rewrites the Staging List to `"foo\nfoo\n"` — the bytes change and a write
occurs. -/
theorem c7_second_extractor_run_not_noop :
    extractFromKindle "B".data
        ⟨some "B (A)\r\n- meta\r\n\r\nfoo\r\n==========\r\n".data, none⟩ =
      .ok ⟨some "B (A)\r\n- meta\r\n\r\nfoo\r\n==========\r\n".data, some "foo\n".data⟩ ∧
    extractFromKindle "B".data
        ⟨some "B (A)\r\n- meta\r\n\r\nfoo\r\n==========\r\n".data, some "foo\n".data⟩ =
      .ok ⟨some "B (A)\r\n- meta\r\n\r\nfoo\r\n==========\r\n".data, some "foo\nfoo\n".data⟩ := by
  decide

/-- C4 (amended): a run that selects no entries leaves the Result Table
untouched; a run that selects entries writes the normalized serialization of
every previously present row, in order, as a prefix of the new Result Table,
followed by the lines of the newly appended rows. Rows already in the
Translator's output normal form are unchanged by the re-serialization. -/
theorem c4_amended (oracle : Oracle) (c p : List Char) :
    (entriesToTranslate c = [] →
      translateEntries true oracle ⟨some c, some p⟩ = .ok ⟨some c, some p⟩) ∧
    (entriesToTranslate c ≠ [] →
      ∃ s q, translateEntries true oracle ⟨some c, some p⟩ = .ok ⟨s, some q⟩ ∧
        splitNl q = (getExistingTranslations (some p)).map serializeRow ++
          splitNl (joinNl ((newTranslationsOf oracle c).map serializeRow))) := by
  constructor
  · intro hE
    rw [translateEntries_some, if_pos hE]
  · intro hE
    refine ⟨(translateRunBody oracle c (some p)).staging,
      joinNl ((getExistingTranslations (some p) ++ newTranslationsOf oracle c).map serializeRow),
      ?_, ?_⟩
    · rw [translateEntries_some, if_neg hE]
      rfl
    · rw [List.map_append]
      refine splitNl_joinNl_append ?_ ?_
      · intro l hl
        rcases List.mem_map.mp hl with ⟨ee, hee, rfl⟩
        exact not_newline_existing_rows p ee hee
      · intro hh
        apply hE
        have h2 := List.map_eq_nil_iff.mp hh
        unfold newTranslationsOf at h2
        exact List.map_eq_nil_iff.mp h2

/-- Witness for the amended C4 at a concrete input: prior Result Table
`"foo,bar"` (already normalized), staging `"# Translate from: 1\nbaz\n"`,
an oracle answering `"Z"`. -/
theorem c4_amended_witness :
    ∃ s q, translateEntries true (fun _ => some "Z".data)
        ⟨some "# Translate from: 1\nbaz\n".data, some "foo,bar".data⟩ = .ok ⟨s, some q⟩ ∧
      splitNl q = (getExistingTranslations (some "foo,bar".data)).map serializeRow ++
        splitNl (joinNl ((newTranslationsOf (fun _ => some "Z".data)
          "# Translate from: 1\nbaz\n".data).map serializeRow)) :=
  (c4_amended (fun _ => some "Z".data) "# Translate from: 1\nbaz\n".data "foo,bar".data).2
    (by decide)

/-- C5 (amended): a failing translation call does not abort the run and is not
retried within it — the entry still yields exactly one appended row, carrying
the sentinel `"[Translation error]"` (serialized lowercased as
`"[translation error]"`), and every selected entry (failed or not) contributes
exactly one row; moreover, when the Staging List has a valid header and no
blank line precedes a nonempty line, the state after the run is a fixed point,
so the failed entry is not selected again by the next run. -/
theorem c5_amended (oracle : Oracle) (c : List Char) (p : Option (List Char)) (e : List Char)
    (he : e ∈ entriesToTranslate c) (hfail : oracle e = none)
    (hp : headerMarker.isPrefixOf ((splitNl c).headD []) = true)
    (hf : ∃ N, findTranslateFrom ((splitNl c).headD []) = some N)
    (hb : blanksAtEnd ((splitNl c).map trimL) = true) :
    (⟨e, "[Translation error]".data⟩ : TranslationEntry) ∈ newTranslationsOf oracle c ∧
    serializeRow ⟨e, "[Translation error]".data⟩ =
      (e.filter (fun ch => ch ≠ '"')) ++ ',' :: "[translation error]".data ∧
    (newTranslationsOf oracle c).length = (entriesToTranslate c).length ∧
    translateEntries true oracle ⟨some c, p⟩ = .ok (translateRunBody oracle c p) ∧
    translateEntries true oracle (translateRunBody oracle c p) =
      .ok (translateRunBody oracle c p) := by
  have hE : entriesToTranslate c ≠ [] := by
    intro hh
    rw [hh] at he
    exact (List.not_mem_nil e) he
  have h1 : translateEntries true oracle ⟨some c, p⟩ = .ok (translateRunBody oracle c p) := by
    rw [translateEntries_some, if_neg hE]
  obtain ⟨N, hfN⟩ := hf
  refine ⟨?_, ?_, ?_, h1, secondRunNoop oracle oracle c p N hp hfN hb _ h1⟩
  · exact List.mem_map.mpr ⟨e, he, by simp [applyOracle, hfail]⟩
  · simp only [serializeRow]
    rw [(by decide :
      trimL (("[Translation error]".data.filter (fun ch => ch ≠ '"')).map Char.toLower) =
        "[translation error]".data)]
  · unfold newTranslationsOf
    rw [List.length_map]

/-- Witness for the amended C5 at a concrete input: staging
`"# Translate from: 1\nfoo\nx\n"`, an oracle that throws on `"x"` and answers
`"Y"` otherwise. -/
theorem c5_amended_witness :
    (⟨"x".data, "[Translation error]".data⟩ : TranslationEntry) ∈
      newTranslationsOf (fun e => if e = "x".data then none else some "Y".data)
        "# Translate from: 1\nfoo\nx\n".data ∧
    serializeRow ⟨"x".data, "[Translation error]".data⟩ =
      ("x".data.filter (fun ch => ch ≠ '"')) ++ ',' :: "[translation error]".data ∧
    (newTranslationsOf (fun e => if e = "x".data then none else some "Y".data)
        "# Translate from: 1\nfoo\nx\n".data).length =
      (entriesToTranslate "# Translate from: 1\nfoo\nx\n".data).length ∧
    translateEntries true (fun e => if e = "x".data then none else some "Y".data)
        ⟨some "# Translate from: 1\nfoo\nx\n".data, none⟩ =
      .ok (translateRunBody (fun e => if e = "x".data then none else some "Y".data)
        "# Translate from: 1\nfoo\nx\n".data none) ∧
    translateEntries true (fun e => if e = "x".data then none else some "Y".data)
        (translateRunBody (fun e => if e = "x".data then none else some "Y".data)
          "# Translate from: 1\nfoo\nx\n".data none) =
      .ok (translateRunBody (fun e => if e = "x".data then none else some "Y".data)
        "# Translate from: 1\nfoo\nx\n".data none) :=
  c5_amended (fun e => if e = "x".data then none else some "Y".data)
    "# Translate from: 1\nfoo\nx\n".data none "x".data
    (by decide) (by decide) (by decide) ⟨1, by decide⟩ (by decide)

/-- C6 (amended): when the Staging List's first line is a valid
`"# Translate from: N"` header and no blank line precedes a nonempty line,
the state after one Translator run is a fixed point of the Translator: a
second run with no Staging List changes in between (and any oracle) selects
nothing, performs no header rewrite and no Result Table write, and returns
the state unchanged. -/
theorem c6_amended (o1 o2 : Oracle) (c : List Char) (p : Option (List Char))
    (hp : headerMarker.isPrefixOf ((splitNl c).headD []) = true)
    (hf : ∃ N, findTranslateFrom ((splitNl c).headD []) = some N)
    (hb : blanksAtEnd ((splitNl c).map trimL) = true) :
    ∀ st', translateEntries true o1 ⟨some c, p⟩ = .ok st' →
      translateEntries true o2 st' = .ok st' := by
  intro st' h1
  obtain ⟨N, hfN⟩ := hf
  exact secondRunNoop o1 o2 c p N hp hfN hb st' h1

/-- Witness for the amended C6 at a concrete input: staging
`"# Translate from: 1\nfoo\nbar\n"`, oracle answering `"X"`; the first run
produces the shown state and the second run returns it unchanged. -/
theorem c6_amended_witness :
    translateEntries true (fun _ => some "X".data)
        ⟨some "# Translate from: 4\nfoo\nbar\n".data, some "foo,x\nbar,x".data⟩ =
      .ok ⟨some "# Translate from: 4\nfoo\nbar\n".data, some "foo,x\nbar,x".data⟩ :=
  c6_amended (fun _ => some "X".data) (fun _ => some "X".data)
    "# Translate from: 1\nfoo\nbar\n".data none (by decide) ⟨1, by decide⟩ (by decide)
    ⟨some "# Translate from: 4\nfoo\nbar\n".data, some "foo,x\nbar,x".data⟩ (by decide)

/-- C4 counterexample: prior Result Table rows are not preserved verbatim.
With prior contents `"foo,BAR"`, a run that appends one row rewrites the first
row as `"foo,bar"` (the translation field of every re-read row is lowercased,
trimmed and quote-stripped on rewrite), so the old bytes are not a prefix of
the new Result Table. -/
theorem c4_counterexample :
    translateEntries true (fun _ => some "QUX".data)
        ⟨some "# Translate from: 1\nbaz\n".data, some "foo,BAR".data⟩ =
      .ok ⟨some "# Translate from: 3\nbaz\n".data, some "foo,bar\nbaz,qux".data⟩ ∧
    (splitNl "foo,bar\nbaz,qux".data).take 1 ≠ (splitNl "foo,BAR".data).take 1 := by decide

/-- C5 counterexample: a failing entry CAN be selected again (and its
translation retried) on the next run. On the header-less Staging List
`"foo\nx\n"` (the shape the Extractor itself produces), the run selects `x`,
appends the sentinel row, but rewrites no header; the second run selects `x`
again and appends a second sentinel row. -/
theorem c5_counterexample :
    translateEntries true (fun e => if e = "x".data then none else some "Y".data)
        ⟨some "foo\nx\n".data, none⟩ =
      .ok ⟨some "foo\nx\n".data, some "x,[translation error]".data⟩ ∧
    translateEntries true (fun e => if e = "x".data then none else some "Y".data)
        ⟨some "foo\nx\n".data, some "x,[translation error]".data⟩ =
      .ok ⟨some "foo\nx\n".data,
           some "x,[translation error]\nx,[translation error]".data⟩ := by decide

/-- C6 counterexample: running the Translator twice with no Staging List
changes in between is not idempotent in general. On the header-less Staging
List `"foo\nbar\n"` (the shape the Extractor itself produces) the first run
appends a row for `bar` and rewrites no header, so the second run appends the
same row again and performs a Result Table write. -/
theorem c6_counterexample :
    translateEntries true (fun _ => some "X".data) ⟨some "foo\nbar\n".data, none⟩ =
      .ok ⟨some "foo\nbar\n".data, some "bar,x".data⟩ ∧
    translateEntries true (fun _ => some "X".data)
        ⟨some "foo\nbar\n".data, some "bar,x".data⟩ =
      .ok ⟨some "foo\nbar\n".data, some "bar,x\nbar,x".data⟩ := by decide

/-- C8: a run started with a missing translation credential or a missing
required input file aborts with an error before any state mutation: the
Translator errors on a missing API key for every state and on a missing
Staging List for every Result Table, and the Extractor errors on a missing
clippings file; in each case no new state is produced, so neither file is
touched. -/
theorem c8_fatal_setup_errors_abort :
    (∀ (oracle : Oracle) (st : TransState),
        translateEntries false oracle st = .error .noApiKey) ∧
    (∀ (oracle : Oracle) (csv : Option (List Char)),
        translateEntries true oracle ⟨none, csv⟩ = .error .inputNotFound) ∧
    (∀ (book : List Char) (staging : Option (List Char)),
        extractFromKindle book ⟨none, staging⟩ = .error .clippingsNotFound) :=
  ⟨fun _ _ => rfl, fun _ _ => rfl, fun _ _ => rfl⟩

/-- C9: `getFileMetadata` is total (modelled as a plain function, it can never
throw) and returns the `-1` sentinels when the file is absent, when the first
line does not start with the `"# Translate from: "` marker, and when the
marker is present but the regex finds no digit group to parse. -/
theorem c9_metadata_parse_defaults :
    getFileMetadata none = ⟨-1, -1⟩ ∧
    (∀ c : List Char, ¬ headerMarker.isPrefixOf ((splitNl c).headD []) →
        getFileMetadata (some c) = ⟨-1, -1⟩) ∧
    (∀ c : List Char, findTranslateFrom ((splitNl c).headD []) = none →
        getFileMetadata (some c) = ⟨-1, -1⟩) := by
  refine ⟨rfl, fun c h => ?_, fun c h => ?_⟩
  · simp only [getFileMetadata]
    rw [if_neg h]
  · simp only [getFileMetadata]
    split
    · rw [h]
    · rfl

/-- Witness for C9 at concrete inputs: a missing file, a file whose first line
lacks the marker, and a file whose marker is followed by no digits. -/
theorem c9_witness :
    getFileMetadata none = ⟨-1, -1⟩ ∧
    getFileMetadata (some "no header".data) = ⟨-1, -1⟩ ∧
    getFileMetadata (some "# Translate from: x\nfoo".data) = ⟨-1, -1⟩ :=
  ⟨c9_metadata_parse_defaults.1,
   c9_metadata_parse_defaults.2.1 _ (by decide),
   c9_metadata_parse_defaults.2.2 _ (by decide)⟩

/-- C10: for every input, `getFileMetadata` returns
`lastProcessedIndex = -1` — the extraction-stage index field is never parsed —
and the Extractor's selection of "new" highlights is exactly a filter on the
translation checkpoint field `translateFromIndex`. -/
theorem c10_lastProcessedIndex_never_set :
    (∀ c : Option (List Char), (getFileMetadata c).lastProcessedIndex = -1) ∧
    (∀ (hs : List Highlight) (meta : FileMetadata),
        newHighlightsOf hs meta =
          hs.filter (fun h => (h.location : Int) > meta.translateFromIndex)) := by
  constructor
  · intro c
    cases c with
    | none => rfl
    | some s =>
      simp only [getFileMetadata]
      split
      · split <;> rfl
      · rfl
  · intro hs meta
    rfl

end Kindle
